import Mathlib

/-!
Verification of `fieldsclass.py`: a `Field` string subclass that optionally
carries a set of permitted values plus a per-value accessor, and a
`fieldsclass` class decorator that materializes `FieldPlaceholder` class
members into `Field` attributes on a freshly created subclass.

The embedding is shallow: Python objects' attribute dictionaries are
association lists `List (String × α)` with insertion-order-preserving
assignment (Python `setattr` / dict update semantics), absent attributes are
`Option.none` (an `AttributeError` in Python), and `set(...)` is `Finset`.
The source's `Field` class is embedded as `PyField` because Mathlib already
reserves the name `Field`.
-/

set_option autoImplicit false

/-- Python attribute/dict lookup: the value of the first entry whose key
matches, or `none` (an `AttributeError` / `KeyError`) when no entry matches.
A Python dict has at most one entry per key, so "first" is exact. -/
def pyDictGet {α : Type} : List (String × α) → String → Option α
  | [], _ => none
  | (k', v) :: rest, k => if k' = k then some v else pyDictGet rest k

/-- Python `setattr` / dict assignment: replace the value at an existing key
in place (insertion order is preserved), or append a fresh entry. -/
def pySetattr {α : Type} : List (String × α) → String → α → List (String × α)
  | [], k, v => [(k, v)]
  | (k', v') :: rest, k, v =>
      if k' = k then (k, v) :: rest else (k', v') :: pySetattr rest k v

/-- Keys of an attribute dictionary, in insertion order. -/
def pyKeys {α : Type} (d : List (String × α)) : List String :=
  d.map Prod.fst

/-- Model of `class Field(str)` from the source: `name` is the underlying
string content (`super().__new__(cls, obj)`), `values` the optional
`ret.values = set(values)` attribute, and `val` the optional `Field.Val`
accessor object, modelled by its attribute dictionary (built by
`setattr(ret.val, val, val)`). An `Option` that is `none` models an attribute
that is not present, so reading it raises `AttributeError` in Python. -/
structure PyField where
  name : String
  values : Option (Finset String)
  val : Option (List (String × String))
deriving DecidableEq

/-- The accessor object built by `ret.val = Field.Val()` followed by
`for val in values: setattr(ret.val, val, val)`. -/
def mkVal (values : List String) : List (String × String) :=
  values.foldl (fun d v => pySetattr d v v) []

/-- Model of `Field.__new__(cls, obj, values=None)`: the string content is
`obj`; when `values` is truthy (present and non-empty) the `values` set and
the `val` accessor are attached, otherwise neither attribute exists. -/
def PyField.new (obj : String) (values : Option (List String)) : PyField :=
  match values with
  | none => ⟨obj, none, none⟩
  | some vs => if vs.isEmpty then ⟨obj, none, none⟩
      else ⟨obj, some vs.toFinset, some (mkVal vs)⟩

/-- Python `field == s` for a plain string `s`: `Field` does not override
`__eq__`, so `str.__eq__` compares the underlying character content. -/
def PyField.pyEqStr (f : PyField) (s : String) : Bool :=
  f.name == s

/-- Python `f1 == f2` on two `Field`s: again `str.__eq__`, content only. -/
def PyField.pyEqField (f g : PyField) : Bool :=
  f.name == g.name

/-- Python `hash(field)`: `Field` does not override `__hash__`, so it is the
hash of the underlying string content. -/
def PyField.pyHash (f : PyField) : UInt64 :=
  hash f.name

/- ### Equation and structural lemmas about `pySetattr` / `pyDictGet` -/

theorem pySetattr_nil {α : Type} (k : String) (v : α) :
    pySetattr [] k v = [(k, v)] := rfl

theorem pySetattr_cons_self {α : Type} (k : String) (v₀ v : α) (tl : List (String × α)) :
    pySetattr ((k, v₀) :: tl) k v = (k, v) :: tl := by
  simp [pySetattr]

theorem pySetattr_cons_ne {α : Type} (k₀ k : String) (v₀ : α) (v : α)
    (tl : List (String × α)) (h : k₀ ≠ k) :
    pySetattr ((k₀, v₀) :: tl) k v = (k₀, v₀) :: pySetattr tl k v := by
  simp [pySetattr, h]

theorem pyDictGet_nil {α : Type} (k : String) : pyDictGet ([] : List (String × α)) k = none := rfl

theorem pyDictGet_cons {α : Type} (k₀ k : String) (v₀ : α) (tl : List (String × α)) :
    pyDictGet ((k₀, v₀) :: tl) k = if k₀ = k then some v₀ else pyDictGet tl k := rfl

theorem pyDictGet_pySetattr_self {α : Type} (d : List (String × α)) (k : String) (v : α) :
    pyDictGet (pySetattr d k v) k = some v := by
  induction d with
  | nil => simp [pySetattr_nil, pyDictGet_cons, pyDictGet_nil]
  | cons hd tl ih =>
    obtain ⟨k', v'⟩ := hd
    by_cases h : k' = k
    · subst h
      rw [pySetattr_cons_self, pyDictGet_cons, if_pos rfl]
    · rw [pySetattr_cons_ne _ _ _ _ _ h, pyDictGet_cons, if_neg h, ih]

theorem pyDictGet_pySetattr_ne {α : Type} (d : List (String × α)) (k k' : String) (v : α)
    (h : k' ≠ k) : pyDictGet (pySetattr d k v) k' = pyDictGet d k' := by
  induction d with
  | nil =>
    rw [pySetattr_nil, pyDictGet_cons, if_neg (fun hh => h hh.symm), pyDictGet_nil]
  | cons hd tl ih =>
    obtain ⟨k₀, v₀⟩ := hd
    by_cases h0 : k₀ = k
    · subst h0
      rw [pySetattr_cons_self, pyDictGet_cons, pyDictGet_cons,
        if_neg (fun hh => h hh.symm), if_neg (fun hh => h hh.symm)]
    · rw [pySetattr_cons_ne _ _ _ _ _ h0, pyDictGet_cons, pyDictGet_cons]
      by_cases h1 : k₀ = k'
      · rw [if_pos h1, if_pos h1]
      · rw [if_neg h1, if_neg h1, ih]

theorem mem_pyKeys_pySetattr {α : Type} (d : List (String × α)) (k a : String) (v : α) :
    a ∈ pyKeys (pySetattr d k v) ↔ a ∈ pyKeys d ∨ a = k := by
  induction d with
  | nil => simp [pySetattr_nil, pyKeys]
  | cons hd tl ih =>
    obtain ⟨k₀, v₀⟩ := hd
    by_cases h0 : k₀ = k
    · subst h0
      rw [pySetattr_cons_self]
      simp only [pyKeys, List.map_cons, List.mem_cons]
      tauto
    · rw [pySetattr_cons_ne _ _ _ _ _ h0]
      simp only [pyKeys, List.map_cons, List.mem_cons] at ih ⊢
      rw [ih]
      tauto

theorem pyKeys_pySetattr_nodup {α : Type} (d : List (String × α)) (k : String) (v : α)
    (h : (pyKeys d).Nodup) : (pyKeys (pySetattr d k v)).Nodup := by
  induction d with
  | nil => simp [pySetattr_nil, pyKeys]
  | cons hd tl ih =>
    obtain ⟨k₀, v₀⟩ := hd
    simp only [pyKeys, List.map_cons, List.nodup_cons] at h
    by_cases h0 : k₀ = k
    · subst h0
      rw [pySetattr_cons_self]
      simp only [pyKeys, List.map_cons, List.nodup_cons]
      exact ⟨h.1, h.2⟩
    · rw [pySetattr_cons_ne _ _ _ _ _ h0]
      simp only [pyKeys, List.map_cons, List.nodup_cons]
      refine ⟨?_, ih h.2⟩
      intro hmem
      rcases (mem_pyKeys_pySetattr tl k k₀ v).mp hmem with h1 | h1
      · exact h.1 h1
      · exact h0 h1

theorem entries_pySetattr {α : Type} (P : String × α → Prop) (d : List (String × α))
    (k : String) (v : α) (hd : ∀ e ∈ d, P e) (hkv : P (k, v)) :
    ∀ e ∈ pySetattr d k v, P e := by
  induction d with
  | nil =>
    intro e he
    rw [pySetattr_nil] at he
    simp only [List.mem_singleton] at he
    exact he ▸ hkv
  | cons hd0 tl ih =>
    obtain ⟨k₀, v₀⟩ := hd0
    intro e he
    by_cases h0 : k₀ = k
    · subst h0
      rw [pySetattr_cons_self] at he
      rcases List.mem_cons.mp he with rfl | he
      · exact hkv
      · exact hd _ (List.mem_cons_of_mem _ he)
    · rw [pySetattr_cons_ne _ _ _ _ _ h0] at he
      rcases List.mem_cons.mp he with rfl | he
      · exact hd _ (List.mem_cons_self _ _)
      · exact ih (fun e' he' => hd _ (List.mem_cons_of_mem _ he')) e he

/- ### Lemmas about `mkVal` -/

theorem mkVal_go_mem (vs : List String) (d : List (String × String)) (a : String) :
    a ∈ pyKeys (vs.foldl (fun d v => pySetattr d v v) d) ↔ a ∈ pyKeys d ∨ a ∈ vs := by
  induction vs generalizing d with
  | nil => simp
  | cons v vs ih =>
    simp only [List.foldl_cons, List.mem_cons]
    rw [ih, mem_pyKeys_pySetattr]
    tauto

theorem mem_pyKeys_mkVal (vs : List String) (a : String) :
    a ∈ pyKeys (mkVal vs) ↔ a ∈ vs := by
  have := mkVal_go_mem vs [] a
  simpa [mkVal, pyKeys] using this

theorem mkVal_go_nodup (vs : List String) (d : List (String × String))
    (h : (pyKeys d).Nodup) :
    (pyKeys (vs.foldl (fun d v => pySetattr d v v) d)).Nodup := by
  induction vs generalizing d with
  | nil => simpa
  | cons v vs ih =>
    simp only [List.foldl_cons]
    exact ih _ (pyKeys_pySetattr_nodup d v v h)

theorem pyKeys_mkVal_nodup (vs : List String) : (pyKeys (mkVal vs)).Nodup :=
  mkVal_go_nodup vs [] (by simp [pyKeys])

theorem mkVal_go_entries (vs : List String) (d : List (String × String))
    (hd : ∀ e ∈ d, e.2 = e.1) :
    ∀ e ∈ vs.foldl (fun d v => pySetattr d v v) d, e.2 = e.1 := by
  induction vs generalizing d with
  | nil =>
    simp only [List.foldl_nil]
    exact hd
  | cons v vs ih =>
    simp only [List.foldl_cons]
    exact ih _ (entries_pySetattr (fun e => e.2 = e.1) d v v hd rfl)

theorem mkVal_entries (vs : List String) : ∀ e ∈ mkVal vs, e.2 = e.1 :=
  mkVal_go_entries vs [] (by simp)

theorem pyDictGet_of_entries_diag (d : List (String × String))
    (hd : ∀ e ∈ d, e.2 = e.1) (a : String) (ha : a ∈ pyKeys d) :
    pyDictGet d a = some a := by
  induction d with
  | nil => simp [pyKeys] at ha
  | cons hd0 tl ih =>
    obtain ⟨k₀, v₀⟩ := hd0
    by_cases h0 : k₀ = a
    · subst h0
      have : v₀ = k₀ := hd (k₀, v₀) (List.mem_cons_self _ _)
      rw [pyDictGet_cons, if_pos rfl, this]
    · simp only [pyKeys, List.map_cons, List.mem_cons] at ha
      rcases ha with rfl | ha
      · exact absurd rfl h0
      · rw [pyDictGet_cons, if_neg h0]
        exact ih (fun e he => hd e (List.mem_cons_of_mem _ he)) ha

theorem pyDictGet_mkVal (vs : List String) (v : String) (hv : v ∈ vs) :
    pyDictGet (mkVal vs) v = some v :=
  pyDictGet_of_entries_diag (mkVal vs) (mkVal_entries vs) v
    ((mem_pyKeys_mkVal vs v).mpr hv)

theorem PyField.new_name (n : String) (vs : Option (List String)) :
    (PyField.new n vs).name = n := by
  cases vs with
  | none => rfl
  | some l => by_cases h : l.isEmpty <;> simp [PyField.new, h]

/- ### Claims about the `Field` constructor -/

/-- C1: for every declared field name `n` (and any value list), the resulting
Field Descriptor's string content is exactly `n`, it compares equal to the
plain string `n` under Python string equality, it hashes identically to `n`,
and mapping lookup keyed by the Field is indistinguishable from lookup keyed
by the plain string `n`. -/
theorem field_equals_plain_string (n : String) (vs : Option (List String))
    (d : List (String × Nat)) :
    (PyField.new n vs).name = n ∧
    PyField.pyEqStr (PyField.new n vs) n = true ∧
    PyField.pyHash (PyField.new n vs) = hash n ∧
    pyDictGet d (PyField.new n vs).name = pyDictGet d n := by
  refine ⟨PyField.new_name n vs, ?_, ?_, ?_⟩
  · simp [PyField.pyEqStr, PyField.new_name]
  · simp [PyField.pyHash, PyField.new_name]
  · rw [PyField.new_name]

/-- C2: a field constructed with a non-empty list of value labels exposes
`values` as the set of those labels (duplicates collapse via `set(...)`), and
its accessor has exactly one member per distinct label (keys are distinct and
range over exactly the labels), each member's value being the label itself. -/
theorem field_with_values (n : String) (vs : List String) (hne : vs ≠ []) :
    (PyField.new n (some vs)).values = some vs.toFinset ∧
    (PyField.new n (some vs)).val = some (mkVal vs) ∧
    (pyKeys (mkVal vs)).Nodup ∧
    (∀ a, a ∈ pyKeys (mkVal vs) ↔ a ∈ vs) ∧
    (∀ v ∈ vs, pyDictGet (mkVal vs) v = some v) := by
  have h : vs.isEmpty = false := by
    cases vs with
    | nil => exact absurd rfl hne
    | cons a l => rfl
  refine ⟨?_, ?_, pyKeys_mkVal_nodup vs, fun a => mem_pyKeys_mkVal vs a, pyDictGet_mkVal vs⟩
  · simp [PyField.new, h]
  · simp [PyField.new, h]

/-- Witness for C2 at the spec's own example `["a", "a", "b"]`: duplicates
collapse, the accessor's keys are distinct, and member `a` holds `"a"`. -/
theorem field_with_values_witness :
    (PyField.new "f" (some ["a", "a", "b"])).values = some (["a", "a", "b"] : List String).toFinset ∧
    (PyField.new "f" (some ["a", "a", "b"])).val = some (mkVal ["a", "a", "b"]) ∧
    (pyKeys (mkVal ["a", "a", "b"])).Nodup ∧
    pyDictGet (mkVal ["a", "a", "b"]) "a" = some "a" :=
  ⟨(field_with_values "f" ["a", "a", "b"] (by decide)).1,
   (field_with_values "f" ["a", "a", "b"] (by decide)).2.1,
   (field_with_values "f" ["a", "a", "b"] (by decide)).2.2.1,
   (field_with_values "f" ["a", "a", "b"] (by decide)).2.2.2.2 "a" (by decide)⟩

/-- C3: a field constructed without a value list, or with an empty one,
carries neither the `values` attribute nor the `val` accessor (reading either
raises `AttributeError`), and the empty-but-present list is treated exactly
like the absent one. -/
theorem field_without_values (n : String) :
    (PyField.new n none).values = none ∧
    (PyField.new n none).val = none ∧
    PyField.new n (some []) = PyField.new n none :=
  ⟨rfl, rfl, rfl⟩

/-- C9: equality and hashing of Field Descriptors depend only on the name;
the declared value lists play no part. -/
theorem field_identity_ignores_values (n : String) (vs₁ vs₂ : Option (List String)) :
    PyField.pyEqField (PyField.new n vs₁) (PyField.new n vs₂) = true ∧
    PyField.pyHash (PyField.new n vs₁) = PyField.pyHash (PyField.new n vs₂) := by
  constructor
  · simp [PyField.pyEqField, PyField.new_name]
  · simp [PyField.pyHash, PyField.new_name]

/- ### The `fieldsclass` Schema Transformer -/

/-- A class member as seen by `fieldsclass`: a `FieldPlaceholder` (the
dataclass holding `values: Optional[list[str]] = None`), an already
materialized `Field`, or any other member (dunder entries, methods,
plain constants ...), abstracted by a tag. -/
inductive PyVal where
  | placeholder (values : Option (List String))
  | field (f : PyField)
  | other (tag : Nat)
deriving DecidableEq

/-- Python `isinstance(v, FieldPlaceholder)`. -/
def PyVal.isPlaceholder : PyVal → Bool
  | .placeholder _ => true
  | _ => false

/-- State of the transformation. `clazzDict` is `clazz.__dict__`; because
`class Decorated(clazz): pass` makes the schema inherit from `clazz`,
the schema keeps referencing this dictionary after transformation, so a
later mutation of `clazz` is a change of this component. `decoratedDict`
is `Decorated.__dict__`, populated by `setattr(Decorated, k, Field(...))`. -/
structure TState where
  clazzDict : List (String × PyVal)
  decoratedDict : List (String × PyVal)
deriving DecidableEq

/-- Python attribute lookup on the schema class: `Decorated.__dict__` first,
then the base class `clazz.__dict__` along the method resolution order. -/
def TState.lookup (s : TState) (k : String) : Option PyVal :=
  match pyDictGet s.decoratedDict k with
  | some v => some v
  | none => pyDictGet s.clazzDict k

/-- One iteration of `for k, v in clazz.__dict__.items()`: a placeholder is
materialized onto `Decorated` via `setattr(Decorated, k, Field(k, values=v.values))`;
anything else is skipped (`continue`). -/
def transformStep (s : TState) (e : String × PyVal) : TState :=
  match e.2 with
  | PyVal.placeholder vals =>
      TState.mk s.clazzDict (pySetattr s.decoratedDict e.1 (PyVal.field (PyField.new e.1 vals)))
  | _ => s

/-- The effect of one iteration on `Decorated.__dict__` alone. -/
def stepOwn (d : List (String × PyVal)) (e : String × PyVal) : List (String × PyVal) :=
  match e.2 with
  | PyVal.placeholder vals => pySetattr d e.1 (PyVal.field (PyField.new e.1 vals))
  | _ => d

/-- Model of the decorator `fieldsclass(clazz)`: create `Decorated` with an
empty own dictionary inheriting `clazz`, then run the loop over
`clazz.__dict__.items()` in order. -/
def runTransform (clazz : List (String × PyVal)) : TState :=
  clazz.foldl transformStep (TState.mk clazz [])

/- ### Lemmas about the transformer -/

theorem foldl_transformStep_clazzDict (l : List (String × PyVal)) (s : TState) :
    (l.foldl transformStep s).clazzDict = s.clazzDict := by
  induction l generalizing s with
  | nil => rfl
  | cons e l ih =>
    rw [List.foldl_cons, ih]
    obtain ⟨k, v⟩ := e
    cases v <;> rfl

theorem foldl_transformStep_decoratedDict (l : List (String × PyVal)) (s : TState) :
    (l.foldl transformStep s).decoratedDict = l.foldl stepOwn s.decoratedDict := by
  induction l generalizing s with
  | nil => rfl
  | cons e l ih =>
    rw [List.foldl_cons, List.foldl_cons, ih]
    obtain ⟨k, v⟩ := e
    cases v <;> rfl

theorem runTransform_clazzDict (clazz : List (String × PyVal)) :
    (runTransform clazz).clazzDict = clazz :=
  foldl_transformStep_clazzDict clazz (TState.mk clazz [])

theorem runTransform_decoratedDict (clazz : List (String × PyVal)) :
    (runTransform clazz).decoratedDict = clazz.foldl stepOwn [] :=
  foldl_transformStep_decoratedDict clazz (TState.mk clazz [])

theorem foldl_stepOwn_notin (l : List (String × PyVal)) (d : List (String × PyVal))
    (k : String) (hk : k ∉ pyKeys l) :
    pyDictGet (l.foldl stepOwn d) k = pyDictGet d k := by
  induction l generalizing d with
  | nil => rfl
  | cons e l ih =>
    obtain ⟨k', v⟩ := e
    simp only [pyKeys, List.map_cons, List.mem_cons] at hk
    push_neg at hk
    rw [List.foldl_cons, ih _ (by simpa [pyKeys] using hk.2)]
    cases v with
    | placeholder vals =>
      exact pyDictGet_pySetattr_ne d k' k (PyVal.field (PyField.new k' vals)) hk.1
    | field f => rfl
    | other t => rfl

theorem foldl_stepOwn_placeholder (clazz : List (String × PyVal)) (d : List (String × PyVal))
    (k : String) (vals : Option (List String)) (hnd : (pyKeys clazz).Nodup)
    (hk : pyDictGet clazz k = some (PyVal.placeholder vals)) :
    pyDictGet (clazz.foldl stepOwn d) k = some (PyVal.field (PyField.new k vals)) := by
  induction clazz generalizing d with
  | nil => simp [pyDictGet_nil] at hk
  | cons e l ih =>
    obtain ⟨k', v⟩ := e
    simp only [pyKeys, List.map_cons, List.nodup_cons] at hnd
    by_cases h0 : k' = k
    · subst h0
      rw [pyDictGet_cons, if_pos rfl] at hk
      obtain rfl : v = PyVal.placeholder vals := by
        injection hk
      rw [List.foldl_cons]
      have hstep : stepOwn d (k', PyVal.placeholder vals)
          = pySetattr d k' (PyVal.field (PyField.new k' vals)) := rfl
      rw [hstep, foldl_stepOwn_notin l _ k' (by simpa [pyKeys] using hnd.1)]
      exact pyDictGet_pySetattr_self d k' (PyVal.field (PyField.new k' vals))
    · rw [pyDictGet_cons, if_neg h0] at hk
      rw [List.foldl_cons]
      exact ih _ hnd.2 hk

theorem mem_pyKeys_stepOwn (d : List (String × PyVal)) (e : String × PyVal)
    (k : String) (hk : k ∈ pyKeys d) : k ∈ pyKeys (stepOwn d e) := by
  obtain ⟨k', v⟩ := e
  cases v with
  | placeholder vals =>
    exact (mem_pyKeys_pySetattr d k' k (PyVal.field (PyField.new k' vals))).mpr (Or.inl hk)
  | field f => exact hk
  | other t => exact hk

theorem mem_pyKeys_foldl_stepOwn_mono (l : List (String × PyVal))
    (d : List (String × PyVal)) (k : String) (hk : k ∈ pyKeys d) :
    k ∈ pyKeys (l.foldl stepOwn d) := by
  induction l generalizing d with
  | nil => exact hk
  | cons e l ih =>
    rw [List.foldl_cons]
    exact ih _ (mem_pyKeys_stepOwn d e k hk)

theorem mem_pyKeys_foldl_stepOwn_of_placeholder (clazz : List (String × PyVal))
    (d : List (String × PyVal)) (k : String) (vals : Option (List String))
    (hk : pyDictGet clazz k = some (PyVal.placeholder vals)) :
    k ∈ pyKeys (clazz.foldl stepOwn d) := by
  induction clazz generalizing d with
  | nil => simp [pyDictGet_nil] at hk
  | cons e l ih =>
    obtain ⟨k', v⟩ := e
    by_cases h0 : k' = k
    · subst h0
      rw [pyDictGet_cons, if_pos rfl] at hk
      obtain rfl : v = PyVal.placeholder vals := by
        injection hk
      rw [List.foldl_cons]
      refine mem_pyKeys_foldl_stepOwn_mono l _ k' ?_
      exact (mem_pyKeys_pySetattr d k' k' (PyVal.field (PyField.new k' vals))).mpr (Or.inr rfl)
    · rw [pyDictGet_cons, if_neg h0] at hk
      rw [List.foldl_cons]
      exact ih _ hk

theorem foldl_stepOwn_no_placeholder_entries (l : List (String × PyVal))
    (d : List (String × PyVal)) (hd : ∀ e ∈ d, PyVal.isPlaceholder e.2 = false) :
    ∀ e ∈ l.foldl stepOwn d, PyVal.isPlaceholder e.2 = false := by
  induction l generalizing d with
  | nil => exact hd
  | cons e0 l ih =>
    rw [List.foldl_cons]
    refine ih _ ?_
    obtain ⟨k', v⟩ := e0
    cases v with
    | placeholder vals =>
      exact entries_pySetattr (fun e => PyVal.isPlaceholder e.2 = false) d k'
        (PyVal.field (PyField.new k' vals)) hd rfl
    | field f => exact hd
    | other t => exact hd

theorem mem_of_pyDictGet {α : Type} (d : List (String × α)) (k : String) (v : α)
    (h : pyDictGet d k = some v) : (k, v) ∈ d := by
  induction d with
  | nil => simp [pyDictGet_nil] at h
  | cons e tl ih =>
    obtain ⟨k₀, v₀⟩ := e
    rw [pyDictGet_cons] at h
    by_cases h0 : k₀ = k
    · subst h0
      rw [if_pos rfl] at h
      obtain rfl : v₀ = v := by injection h
      exact List.mem_cons_self _ _
    · rw [if_neg h0] at h
      exact List.mem_cons_of_mem _ (ih h)

theorem pyDictGet_eq_none_iff {α : Type} (d : List (String × α)) (k : String) :
    pyDictGet d k = none ↔ k ∉ pyKeys d := by
  induction d with
  | nil => simp [pyDictGet_nil, pyKeys]
  | cons e tl ih =>
    obtain ⟨k₀, v₀⟩ := e
    rw [pyDictGet_cons]
    by_cases h0 : k₀ = k
    · subst h0
      simp [pyKeys]
    · simp only [if_neg h0, pyKeys, List.map_cons, List.mem_cons]
      rw [ih]
      simp only [pyKeys]
      constructor
      · rintro h (rfl | hm)
        · exact h0 rfl
        · exact h hm
      · intro h hm
        exact h (Or.inr hm)

theorem pyDictGet_of_mem_nodup {α : Type} (d : List (String × α)) (k : String) (v : α)
    (hnd : (pyKeys d).Nodup) (hm : (k, v) ∈ d) : pyDictGet d k = some v := by
  induction d with
  | nil => simp at hm
  | cons e tl ih =>
    obtain ⟨k₀, v₀⟩ := e
    simp only [pyKeys, List.map_cons, List.nodup_cons] at hnd
    rcases List.mem_cons.mp hm with he | hm'
    · have h1 : k₀ = k := (congrArg Prod.fst he).symm
      have h2 : v₀ = v := (congrArg Prod.snd he).symm
      rw [pyDictGet_cons, if_pos h1, h2]
    · by_cases h0 : k₀ = k
      · subst h0
        exact absurd (List.mem_map_of_mem Prod.fst hm') hnd.1
      · rw [pyDictGet_cons, if_neg h0]
        exact ih hnd.2 hm'

/- ### Claims about the Schema Transformer -/

/-- C4: for every declaration set with distinct member names, every
placeholder entry `(k, FieldPlaceholder(vals))` yields, on the produced
schema, a binding of `Field(k, values=vals)` under the name `k`, whose string
content is exactly `k`; its `values`/accessor behavior is that of the `Field`
constructor. -/
theorem transformer_materializes_placeholders (clazz : List (String × PyVal)) (k : String)
    (vals : Option (List String)) (hnd : (pyKeys clazz).Nodup)
    (hk : pyDictGet clazz k = some (PyVal.placeholder vals)) :
    (runTransform clazz).lookup k = some (PyVal.field (PyField.new k vals)) ∧
    (PyField.new k vals).name = k := by
  have hown : pyDictGet (runTransform clazz).decoratedDict k
      = some (PyVal.field (PyField.new k vals)) := by
    rw [runTransform_decoratedDict]
    exact foldl_stepOwn_placeholder clazz [] k vals hnd hk
  refine ⟨?_, PyField.new_name k vals⟩
  unfold TState.lookup
  rw [hown]

/-- Witness for C4: the spec's concrete scenario, a schema declaring
`Status` with values `["Succeeded", "Failed"]` and `Name` with no values. -/
theorem transformer_materializes_placeholders_witness :
    ((runTransform [("Status", PyVal.placeholder (some ["Succeeded", "Failed"])),
        ("Name", PyVal.placeholder none)]).lookup "Status"
      = some (PyVal.field (PyField.new "Status" (some ["Succeeded", "Failed"]))) ∧
     (PyField.new "Status" (some ["Succeeded", "Failed"])).name = "Status") ∧
    ((runTransform [("Status", PyVal.placeholder (some ["Succeeded", "Failed"])),
        ("Name", PyVal.placeholder none)]).lookup "Name"
      = some (PyVal.field (PyField.new "Name" none)) ∧
     (PyField.new "Name" none).name = "Name") :=
  ⟨transformer_materializes_placeholders _ "Status" (some ["Succeeded", "Failed"])
      (by decide) (by decide),
   transformer_materializes_placeholders _ "Name" none (by decide) (by decide)⟩

/-- C5: member lookup on the produced schema never yields a placeholder:
every placeholder name has been shadowed by a materialized `Field`, and the
schema's own dictionary contains only `Field`s. -/
theorem schema_lookup_never_placeholder (clazz : List (String × PyVal)) (k : String)
    (v : PyVal) (h : (runTransform clazz).lookup k = some v) :
    PyVal.isPlaceholder v = false := by
  unfold TState.lookup at h
  cases hdec : pyDictGet (runTransform clazz).decoratedDict k with
  | some w =>
    rw [hdec] at h
    have hwv : w = v := by injection h
    have hmem : (k, w) ∈ (runTransform clazz).decoratedDict := mem_of_pyDictGet _ k w hdec
    rw [runTransform_decoratedDict] at hmem
    have hent := foldl_stepOwn_no_placeholder_entries clazz [] (by simp) (k, w) hmem
    rw [hwv] at hent
    exact hent
  | none =>
    rw [hdec] at h
    rw [runTransform_clazzDict] at h
    cases v with
    | placeholder vals =>
      exfalso
      have hk : k ∈ pyKeys (runTransform clazz).decoratedDict := by
        rw [runTransform_decoratedDict]
        exact mem_pyKeys_foldl_stepOwn_of_placeholder clazz [] k vals h
      exact ((pyDictGet_eq_none_iff _ k).mp hdec) hk
    | field f => rfl
    | other t => rfl

/-- Witness for C5 at the concrete two-placeholder schema. -/
theorem schema_lookup_never_placeholder_witness :
    PyVal.isPlaceholder (PyVal.field (PyField.new "Name" none)) = false :=
  schema_lookup_never_placeholder
    [("Status", PyVal.placeholder (some ["Succeeded", "Failed"])),
     ("Name", PyVal.placeholder none)] "Name"
    (PyVal.field (PyField.new "Name" none)) (by decide)

/-- C7: non-placeholder members of the declaration set pass through the
transformer untouched: on a declaration set with distinct member names, any
name bound to a non-placeholder value is looked up on the schema to exactly
that value. -/
theorem foldl_stepOwn_no_new_key (l : List (String × PyVal)) (d : List (String × PyVal))
    (k : String) (hl : ∀ v', (k, v') ∈ l → PyVal.isPlaceholder v' = false)
    (hd : k ∉ pyKeys d) : k ∉ pyKeys (l.foldl stepOwn d) := by
  induction l generalizing d with
  | nil => simpa using hd
  | cons e l ih =>
    obtain ⟨k', v⟩ := e
    rw [List.foldl_cons]
    refine ih _ (fun v' hm => hl v' (List.mem_cons_of_mem _ hm)) ?_
    cases v with
    | placeholder vals =>
      have hne : k' ≠ k := by
        intro h
        subst h
        have := hl (PyVal.placeholder vals) (List.mem_cons_self _ _)
        simp [PyVal.isPlaceholder] at this
      intro hmem
      rcases (mem_pyKeys_pySetattr d k' k (PyVal.field (PyField.new k' vals))).mp hmem
        with h1 | h1
      · exact hd h1
      · exact hne h1.symm
    | field f => exact hd
    | other t => exact hd

theorem non_placeholders_pass_through (clazz : List (String × PyVal)) (k : String)
    (v : PyVal) (hnd : (pyKeys clazz).Nodup) (hv : pyDictGet clazz k = some v)
    (hnp : PyVal.isPlaceholder v = false) :
    (runTransform clazz).lookup k = some v := by
  have hall : ∀ v', (k, v') ∈ clazz → PyVal.isPlaceholder v' = false := by
    intro v' hm
    have hg := pyDictGet_of_mem_nodup clazz k v' hnd hm
    rw [hv] at hg
    have hvv : v = v' := by injection hg
    rw [← hvv]
    exact hnp
  have hnotin : k ∉ pyKeys (runTransform clazz).decoratedDict := by
    rw [runTransform_decoratedDict]
    exact foldl_stepOwn_no_new_key clazz [] k hall (by simp [pyKeys])
  have hdec : pyDictGet (runTransform clazz).decoratedDict k = none :=
    (pyDictGet_eq_none_iff _ k).mpr hnotin
  unfold TState.lookup
  rw [hdec, runTransform_clazzDict, hv]

/-- Witness for C7: an already-resolved, non-placeholder member `extra`
survives transformation unchanged next to a placeholder. -/
theorem non_placeholders_pass_through_witness :
    (runTransform [("Status", PyVal.placeholder (some ["Succeeded", "Failed"])),
        ("extra", PyVal.other 7)]).lookup "extra" = some (PyVal.other 7) :=
  non_placeholders_pass_through
    [("Status", PyVal.placeholder (some ["Succeeded", "Failed"])), ("extra", PyVal.other 7)]
    "extra" (PyVal.other 7) (by decide) (by decide) (by decide)

/-- C10: the transformer never writes to the declaration class: after
`fieldsclass(clazz)` runs, `clazz.__dict__` is exactly what it was before,
and in particular every member — placeholders included — is still present
on the original declaration class. -/
theorem transformer_preserves_input (clazz : List (String × PyVal)) :
    (runTransform clazz).clazzDict = clazz ∧
    (∀ e ∈ clazz, e ∈ (runTransform clazz).clazzDict) ∧
    (∀ k, pyDictGet (runTransform clazz).clazzDict k = pyDictGet clazz k) := by
  refine ⟨runTransform_clazzDict clazz, ?_, ?_⟩
  · intro e he
    rw [runTransform_clazzDict]
    exact he
  · intro k
    rw [runTransform_clazzDict]

/-- Witness for C10 at a concrete declaration set mixing a placeholder and a
plain member: `clazz.__dict__` is unchanged by the transformation. -/
theorem transformer_preserves_input_witness :
    (runTransform [("Name", PyVal.placeholder none), ("extra", PyVal.other 7)]).clazzDict
      = [("Name", PyVal.placeholder none), ("extra", PyVal.other 7)] :=
  (transformer_preserves_input [("Name", PyVal.placeholder none), ("extra", PyVal.other 7)]).1

/-- C6 counterexample: the produced schema is NOT insulated from later
mutation of the declaration set. Because `Decorated` inherits from `clazz`,
adding a member `Extra` to the declaration class after transformation is
observable through attribute lookup on the already-produced schema: before
the mutation, `Extra` is not found; after it, it is. -/
theorem schema_observes_declaration_mutation :
    (runTransform [("Name", PyVal.placeholder none)]).lookup "Extra" = none ∧
    (TState.mk
        (pySetattr (runTransform [("Name", PyVal.placeholder none)]).clazzDict
          "Extra" (PyVal.other 0))
        (runTransform [("Name", PyVal.placeholder none)]).decoratedDict).lookup "Extra"
      = some (PyVal.other 0) := by
  constructor
  · rfl
  · rfl

/-- C6 (amended): a Field Descriptor's string identity is fixed at creation,
and every schema binding that was materialized from a placeholder is immune
to later mutation of the declaration set: whatever the declaration class's
dictionary is mutated to, lookup of such a name on the schema still returns
the originally materialized Field Descriptor. (Names NOT shadowed by a
materialized Field remain visible through inheritance, per the
counterexample.) -/
theorem schema_placeholder_bindings_immutable (clazz : List (String × PyVal)) (k : String)
    (vals : Option (List String)) (d' : List (String × PyVal))
    (hnd : (pyKeys clazz).Nodup)
    (hk : pyDictGet clazz k = some (PyVal.placeholder vals)) :
    (TState.mk d' (runTransform clazz).decoratedDict).lookup k
      = some (PyVal.field (PyField.new k vals)) ∧
    (PyField.new k vals).name = k := by
  have hown : pyDictGet (runTransform clazz).decoratedDict k
      = some (PyVal.field (PyField.new k vals)) := by
    rw [runTransform_decoratedDict]
    exact foldl_stepOwn_placeholder clazz [] k vals hnd hk
  refine ⟨?_, PyField.new_name k vals⟩
  unfold TState.lookup
  simp only
  rw [hown]

/-- Witness for the amended C6: even after `Name` is rebound and `Extra`
added on the declaration class, the schema still answers `Name` with the
originally materialized Field. -/
theorem schema_placeholder_bindings_immutable_witness :
    (TState.mk
        (pySetattr (pySetattr [("Name", PyVal.placeholder none)] "Name" (PyVal.other 3))
          "Extra" (PyVal.other 0))
        (runTransform [("Name", PyVal.placeholder none)]).decoratedDict).lookup "Name"
      = some (PyVal.field (PyField.new "Name" none)) ∧
    (PyField.new "Name" none).name = "Name" :=
  schema_placeholder_bindings_immutable [("Name", PyVal.placeholder none)] "Name" none
    (pySetattr (pySetattr [("Name", PyVal.placeholder none)] "Name" (PyVal.other 3))
      "Extra" (PyVal.other 0))
    (by decide) (by decide)


/- ### Dynamic-typing model, for authoring-time shape errors -/

/-- An element of a Python container, one level deep: `None`, an `int`, a
`bool`, a `str`, or a (nested) `list`. A nested list's own contents are not
modelled — the one relevant property of a list element here is that it is
unhashable. -/
inductive PyAtom where
  | anone
  | aint (n : Int)
  | abool (b : Bool)
  | astr (s : String)
  | alist
deriving DecidableEq

/-- A Python runtime value passed as the `values` field of a placeholder,
for modelling what happens when that field has the wrong shape (its
`Optional[list[str]]` annotation is not enforced by Python). -/
inductive PyObj where
  | pynone
  | pyint (n : Int)
  | pybool (b : Bool)
  | pystr (s : String)
  | pylist (l : List PyAtom)
deriving DecidableEq

/-- The only error the modelled code paths can raise: Python `TypeError`
(from `set(...)` on a non-iterable or unhashable input, or `setattr` with a
non-string attribute name). -/
inductive PyErr where
  | typeError
deriving DecidableEq

/-- Python truthiness (`if values:`). -/
def PyObj.truthy : PyObj → Bool
  | .pynone => false
  | .pyint n => decide (n ≠ 0)
  | .pybool b => b
  | .pystr s => decide (s ≠ "")
  | .pylist l => decide (l ≠ [])

/-- Whether a value is itself a Python `str`. -/
def PyObj.isStr : PyObj → Bool
  | .pystr _ => true
  | _ => false

/-- Whether a container element is a `str`. -/
def PyAtom.isStr : PyAtom → Bool
  | .astr _ => true
  | _ => false

/-- Python hashability, as relevant here: lists are unhashable, the other
modelled element kinds are hashable. -/
def PyAtom.hashable : PyAtom → Bool
  | .alist => false
  | _ => true

/-- Python iteration: a list yields its elements, a string yields its
characters as one-character strings, anything else raises `TypeError`. -/
def pyIter : PyObj → Except PyErr (List PyAtom)
  | .pystr s => .ok (s.data.map (fun c => PyAtom.astr (String.mk [c])))
  | .pylist l => .ok l
  | _ => .error .typeError

/-- Order-preserving deduplication, the membership content of `set(...)`. -/
def pyDedup (l : List PyAtom) : List PyAtom :=
  l.foldl (fun acc x => if x ∈ acc then acc else acc ++ [x]) []

/-- Python `set(items)`: `TypeError` on an unhashable element, otherwise the
deduplicated elements. -/
def pySetOf (l : List PyAtom) : Except PyErr (List PyAtom) :=
  if l.all PyAtom.hashable then .ok (pyDedup l) else .error .typeError

/-- The `for val in values: setattr(ret.val, val, val)` loop on dynamic
values: `setattr` demands a string attribute name, so a non-`str` element
raises `TypeError`. -/
def buildValDynGo (d : List (String × PyAtom)) :
    List PyAtom → Except PyErr (List (String × PyAtom))
  | [] => .ok d
  | v :: rest =>
    match v with
    | PyAtom.astr s => buildValDynGo (pySetattr d s (PyAtom.astr s)) rest
    | _ => .error .typeError

/-- A `Field` whose `values`/`val` attributes hold dynamic values, produced
when the constructor is fed an arbitrarily-shaped `values` argument. -/
structure DynField where
  name : String
  values : Option (List PyAtom)
  val : Option (List (String × PyAtom))
deriving DecidableEq

/-- Model of `Field.__new__` on a dynamically-typed `values` argument:
falsy values skip the whole block; truthy values are iterated for
`set(values)` and again for the `setattr` loop, surfacing `TypeError`
as the Python code would. -/
def FieldNewDyn (obj : String) (values : PyObj) : Except PyErr DynField :=
  if values.truthy then
    match pyIter values with
    | .error e => .error e
    | .ok items =>
      match pySetOf items with
      | .error e => .error e
      | .ok vset =>
        match buildValDynGo [] items with
        | .error e => .error e
        | .ok d => .ok (DynField.mk obj (some vset) (some d))
  else .ok (DynField.mk obj none none)

/-- The decorator loop over placeholder entries whose `values` fields are
dynamic values: each is materialized with `Field(k, values=v.values)`; an
exception aborts the decoration, so no schema is produced. -/
def runTransformDynGo (acc : List (String × DynField)) :
    List (String × PyObj) → Except PyErr (List (String × DynField))
  | [] => .ok acc
  | (k, v) :: rest =>
    match FieldNewDyn k v with
    | .error e => .error e
    | .ok f => runTransformDynGo (pySetattr acc k f) rest

/-- Model of `fieldsclass` on a declaration set of placeholders with
dynamically-typed `values` fields. -/
def runTransformDyn (clazz : List (String × PyObj)) :
    Except PyErr (List (String × DynField)) :=
  runTransformDynGo [] clazz

/-- Modelled from the spec's words "an ordered sequence of text": a list
whose elements are all strings. Used only to state what a well-shaped
value-sequence is in claim C8. -/
def isOrderedTextSequence : PyObj → Bool
  | .pylist l => l.all PyAtom.isStr
  | _ => false

theorem buildValDynGo_error_of_nonstr (items : List PyAtom) (d : List (String × PyAtom))
    (hx : ∃ x ∈ items, PyAtom.isStr x = false) :
    buildValDynGo d items = .error PyErr.typeError := by
  induction items generalizing d with
  | nil => simp at hx
  | cons y rest ih =>
    obtain ⟨x, hxm, hxs⟩ := hx
    rcases List.mem_cons.mp hxm with rfl | hxm'
    · cases x with
      | astr s => simp [PyAtom.isStr] at hxs
      | anone => rfl
      | aint n => rfl
      | abool b => rfl
      | alist => rfl
    · cases y with
      | astr s => exact ih _ ⟨x, hxm', hxs⟩
      | anone => rfl
      | aint n => rfl
      | abool b => rfl
      | alist => rfl

theorem FieldNewDyn_error_of_bad (k : String) (v : PyObj) (ht : v.truthy = true)
    (hs : PyObj.isStr v = false) (hshape : isOrderedTextSequence v = false) :
    FieldNewDyn k v = .error PyErr.typeError := by
  cases v with
  | pynone => simp [PyObj.truthy] at ht
  | pyint n => simp [FieldNewDyn, ht, pyIter]
  | pybool b => simp [FieldNewDyn, ht, pyIter]
  | pystr s => simp [PyObj.isStr] at hs
  | pylist l =>
    have hbad : ∃ x ∈ l, PyAtom.isStr x = false := by
      by_contra hcon
      push_neg at hcon
      have hall : l.all PyAtom.isStr = true := by
        rw [List.all_eq_true]
        intro x hx
        have hx' := hcon x hx
        simpa [Bool.not_eq_false] using hx'
      have : isOrderedTextSequence (PyObj.pylist l) = true := hall
      rw [hshape] at this
      cases this
    cases hhash : (l.all PyAtom.hashable) with
    | false => simp [FieldNewDyn, ht, pyIter, pySetOf, hhash]
    | true =>
      simp [FieldNewDyn, ht, pyIter, pySetOf, hhash,
        buildValDynGo_error_of_nonstr l [] hbad]

theorem runTransformDynGo_error_of_entry (l : List (String × PyObj))
    (acc : List (String × DynField)) (k : String) (v : PyObj)
    (hm : (k, v) ∈ l) (he : FieldNewDyn k v = .error PyErr.typeError) :
    runTransformDynGo acc l = .error PyErr.typeError := by
  induction l generalizing acc with
  | nil => simp at hm
  | cons e rest ih =>
    obtain ⟨k₀, v₀⟩ := e
    rcases List.mem_cons.mp hm with heq | hm'
    · have h1 : k₀ = k := (congrArg Prod.fst heq).symm
      have h2 : v₀ = v := (congrArg Prod.snd heq).symm
      subst h1
      subst h2
      simp [runTransformDynGo, he]
    · cases hf : FieldNewDyn k₀ v₀ with
      | error e0 =>
        cases e0
        simp [runTransformDynGo, hf]
      | ok f =>
        simp only [runTransformDynGo, hf]
        exact ih _ hm'

/-- C8 counterexample: a placeholder whose `values` field is the integer `0`
is of the wrong shape (not an ordered sequence of text), yet the transformer
does NOT fail: `0` is falsy, so `Field.__new__` silently treats it as "no
values" and a schema is produced. -/
theorem wrong_shape_falsy_produces_schema :
    isOrderedTextSequence (PyObj.pyint 0) = false ∧
    PyObj.truthy (PyObj.pyint 0) = false ∧
    runTransformDyn [("Name", PyObj.pyint 0)]
      = Except.ok [("Name", DynField.mk "Name" none none)] :=
  ⟨rfl, rfl, rfl⟩

/-- C8 (amended): a placeholder whose `values` field is wrong-shaped fails
fast provided the value is truthy and not itself a string: transformation
surfaces a `TypeError` and produces no schema. (Falsy wrong-shape values —
`0`, `False`, `""`, `[]` — are silently treated as "no values", and a
non-empty string is accepted and iterated character by character, so those
are excluded.) -/
theorem wrong_shape_truthy_nontext_fails_fast (clazz : List (String × PyObj))
    (k : String) (v : PyObj) (hm : (k, v) ∈ clazz) (ht : v.truthy = true)
    (hs : PyObj.isStr v = false) (hshape : isOrderedTextSequence v = false) :
    runTransformDyn clazz = .error PyErr.typeError :=
  runTransformDynGo_error_of_entry clazz [] k v hm
    (FieldNewDyn_error_of_bad k v ht hs hshape)

/-- Witness for the amended C8: a declaration mixing a well-shaped
placeholder with one whose `values` field is the integer `5` aborts with
`TypeError`. -/
theorem wrong_shape_truthy_nontext_fails_fast_witness :
    runTransformDyn [("Status", PyObj.pylist [PyAtom.astr "ok"]), ("Bad", PyObj.pyint 5)]
      = .error PyErr.typeError :=
  wrong_shape_truthy_nontext_fails_fast
    [("Status", PyObj.pylist [PyAtom.astr "ok"]), ("Bad", PyObj.pyint 5)]
    "Bad" (PyObj.pyint 5) (by decide) (by decide) (by decide) (by decide)
